import Mathlib

/-!
Verification of the `KnowledgeBase` RAG engine
(`src/models/knowledge_base.py`): word chunking, embedding batching,
cache validation, cosine-similarity search, and the snapshot
index-alignment invariant.

Conventions of the embedding:
* Python strings are Lean `String`s; file contents are carried as the
  text `_extract_text` yields for the file (extraction of binary
  formats goes through external libraries and filesystem reads, so it
  is modelled by its output).
* numpy floating point arithmetic is interpreted exactly: stored
  vectors have rational entries, and cosine similarity is real-valued
  (the square root of a rational is in general irrational).
* calls to the external OpenAI embedding service are a function
  argument `svc`; `none` models a call that raises.
* a Python function that can raise an uncaught exception returns
  `Except String`; one that cannot returns a plain value.
-/

namespace KB

/-- Words of a Python string as `_chunk_text` computes them:
`re.sub(r'\s+', ' ', text).strip().split()` collapses whitespace and
splits, which yields exactly the maximal whitespace-free nonempty runs
of the text. `wordsAux cs acc` scans the remaining characters `cs`
with the current (reversed) run `acc`. -/
def wordsAux : List Char → List Char → List String
  | [], acc => if acc.isEmpty then [] else [String.mk acc.reverse]
  | c :: cs, acc =>
    if c.isWhitespace then
      if acc.isEmpty then wordsAux cs [] else String.mk acc.reverse :: wordsAux cs []
    else wordsAux cs (c :: acc)

/-- `text.split()` after whitespace normalisation, as in `_chunk_text`. -/
def pyWords (text : String) : List String :=
  wordsAux text.toList []

/-- `' '.join(ws)`. -/
def joinWords : List String → String
  | [] => ""
  | [w] => w
  | w :: ws => w ++ " " ++ joinWords ws

/-- The chunking loop of `_chunk_text`:
`for i in range(0, len(words), step): chunk = ' '.join(words[i:i+csize]); if chunk: append`.
The extra `fuel` argument only phrases the loop as structural
recursion: with a positive step, `fuel = ws.length` can never run out
before the loop guard `i < ws.length` fails (`chunkLoop_fuel`). -/
def chunkLoop (ws : List String) (csize step : ℕ) : ℕ → ℕ → List String
  | _, 0 => []
  | i, fuel + 1 =>
    if i < ws.length then
      let chunk := joinWords ((ws.drop i).take csize)
      let rest := chunkLoop ws csize step (i + step) fuel
      if chunk.length = 0 then rest else chunk :: rest
    else []

/-- `KnowledgeBase._chunk_text`. The step of the Python loop is the int
`chunk_size - chunk_overlap`: positive walks the words, negative makes
`range(0, len(words), step)` empty, and zero makes `range` raise
`ValueError` (which `_chunk_text` does not catch). -/
def chunk_text (chunk_size chunk_overlap : ℕ) (text : String) : Except String (List String) :=
  let ws := pyWords text
  if chunk_overlap < chunk_size then
    .ok (chunkLoop ws chunk_size (chunk_size - chunk_overlap) 0 ws.length)
  else if chunk_size < chunk_overlap then
    .ok []
  else
    .error "ValueError: range() arg 3 must not be zero"

/-- Constructor configuration of `KnowledgeBase.__init__` (the two
directory arguments are represented by the file lists the functions
below receive). -/
structure Config where
  chunk_size : ℕ
  chunk_overlap : ℕ
  similarity_threshold : ℝ

/-- One per-chunk metadata record, as built in `_process_all_documents`
(`source`, `filename`, `type`). -/
structure Metadata where
  source : String
  filename : String
  ftype : String
deriving DecidableEq, Inhabited

/-- The in-memory snapshot: `self.documents`, `self.embeddings`,
`self.metadata`. Vector entries are rationals (exact arithmetic). -/
structure KBState where
  documents : List String
  embeddings : List (List ℚ)
  metadata : List Metadata
deriving DecidableEq

/-- `stat` result of one file: `st_size` and `st_mtime`. -/
structure FileSig where
  size : ℕ
  mtime : ℚ
deriving DecidableEq

/-- One file under the knowledge-base directory, in `rglob` order.
`text` is what `_extract_text` yields for it (extraction of the binary
formats runs through external libraries, so it is modelled by its
output; for `.txt`/`.md` it is the file's contents). -/
structure SrcFile where
  path : String
  filename : String
  suffix : String
  text : String
  sig : FileSig
deriving DecidableEq

/-- The pickled cache artifact written by `load_knowledge_base` /
`_save_cache`. -/
structure CacheData where
  documents : List String
  embeddings : List (List ℚ)
  metadata : List Metadata
  file_signatures : List (String × FileSig)
deriving DecidableEq

/-- The external OpenAI embedding call on a batch of texts: `none`
models a call that raises, `some vs` a response whose `data` holds the
vectors `vs` in order. -/
def EmbedSvc : Type := List String → Option (List (List ℚ))

/-- The service contract assumed by the spec: a successful call
returns one vector per input text. -/
def svcOK (svc : EmbedSvc) : Prop :=
  ∀ b vs, svc b = some vs → vs.length = b.length

/-- `batch_size = 20` of `_generate_embeddings`. -/
def batch_size : ℕ := 20

/-- `[0] * 1536`, the fallback vector for a failed batch. -/
def zero_vector : List ℚ := List.replicate 1536 0

/-- One iteration of `_generate_embeddings` on a batch: on success the
response's vectors, on an exception one `zero_vector` per text of the
batch. -/
def embedBatch (svc : EmbedSvc) (batch : List String) : List (List ℚ) :=
  match svc batch with
  | some vecs => vecs
  | none => batch.map fun _ => zero_vector

/-- The batch loop of `_generate_embeddings`
(`for i in range(0, len(texts), batch_size)`), with a fuel argument
that only phrases it as structural recursion: each iteration consumes
`batch_size ≥ 1` texts, so `fuel = texts.length` never runs out. -/
def genEmbLoop (svc : EmbedSvc) : ℕ → List String → List (List ℚ)
  | _, [] => []
  | 0, _ => []
  | fuel + 1, t :: ts =>
    embedBatch svc ((t :: ts).take batch_size) ++
      genEmbLoop svc fuel ((t :: ts).drop batch_size)

/-- `KnowledgeBase._generate_embeddings`. -/
def generate_embeddings (svc : EmbedSvc) (texts : List String) : List (List ℚ) :=
  genEmbLoop svc texts.length texts

/-- The successive `texts[i:i+batch_size]` slices the batch loop
visits, as a list (same fuel device). -/
def batchesF : ℕ → List String → List (List String)
  | _, [] => []
  | 0, _ => []
  | fuel + 1, t :: ts => (t :: ts).take batch_size :: batchesF fuel ((t :: ts).drop batch_size)

/-- The batches of up to `batch_size` texts `_generate_embeddings`
processes, in order. -/
def batches (texts : List String) : List (List String) :=
  batchesF texts.length texts

/-- `supported_extensions` of `_process_all_documents`. -/
def supported_extensions : List String :=
  [".txt", ".pdf", ".docx", ".doc", ".csv", ".json", ".md"]

/-- `str.lower()` character by character (Python and Unicode simple
lowercasing agree on the extension strings involved). -/
def pyLower (s : String) : String :=
  String.mk (s.toList.map Char.toLower)

/-- The per-file body of `_process_all_documents`: extract, chunk,
append one document and one metadata record per chunk. An exception
(the chunker's `ValueError` when `chunk_size = chunk_overlap`) is
caught per file: the file is skipped and the state left as it was.
Note the appends land on whatever is already in the lists: the
function never clears them. -/
def process_file (cfg : Config) (st : KBState) (f : SrcFile) : KBState :=
  match chunk_text cfg.chunk_size cfg.chunk_overlap f.text with
  | .error _ => st
  | .ok chunks =>
    { st with
      documents := st.documents ++ chunks
      metadata := st.metadata ++ chunks.map fun _ => ⟨f.path, f.filename, f.suffix⟩ }

/-- `KnowledgeBase._process_all_documents`: every file whose lowercased
suffix is supported is processed in order, then, if the accumulated
document list is nonempty, `self.embeddings` is replaced by embeddings
of the whole list. -/
def process_all_documents (cfg : Config) (svc : EmbedSvc) (st : KBState)
    (files : List SrcFile) : KBState :=
  let st1 := (files.filter fun f => supported_extensions.contains (pyLower f.suffix)).foldl
    (process_file cfg) st
  if st1.documents.isEmpty then st1
  else { st1 with embeddings := generate_embeddings svc st1.documents }

/-- `KnowledgeBase._get_file_signatures`: path ↦ (size, mtime) over the
current directory contents, in `rglob` order. -/
def get_file_signatures (files : List SrcFile) : List (String × FileSig) :=
  files.map fun f => (f.path, f.sig)

/-- Python dict lookup on a signature map (first entry wins; a real
dict has each path at most once). -/
def sigLookup (m : List (String × FileSig)) (p : String) : Option FileSig :=
  (m.find? fun q => q.1 == p).map Prod.snd

/-- Python `==` on two signature dicts: same set of paths and the same
size and mtime per path. -/
def sigMapEq (a b : List (String × FileSig)) : Bool :=
  (a.all fun q => sigLookup b q.1 == some q.2) &&
    (b.all fun q => sigLookup a q.1 == some q.2)

/-- The dict `_save_cache` and the miss path of `load_knowledge_base`
pickle. -/
def save_cache (st : KBState) (files : List SrcFile) : CacheData :=
  ⟨st.documents, st.embeddings, st.metadata, get_file_signatures files⟩

/-- `KnowledgeBase.load_knowledge_base`. `cache` is what reading the
cache artifact yields: `none` when the file is missing or unpickling
raises, `some cd` when it deserializes. Returns the new state, whether
the cached snapshot was reused, and the cache artifact written on the
miss path (the write, if it fails, is logged and swallowed; the data
it attempts to write is what matters here). -/
def load_knowledge_base (cfg : Config) (svc : EmbedSvc) (st : KBState)
    (cache : Option CacheData) (files : List SrcFile) :
    KBState × Bool × Option CacheData :=
  let current := get_file_signatures files
  match cache with
  | some cd =>
    if sigMapEq cd.file_signatures current then
      (⟨cd.documents, cd.embeddings, cd.metadata⟩, true, none)
    else
      let st1 := process_all_documents cfg svc st files
      (st1, false, some ⟨st1.documents, st1.embeddings, st1.metadata, current⟩)
  | none =>
    let st1 := process_all_documents cfg svc st files
    (st1, false, some ⟨st1.documents, st1.embeddings, st1.metadata, current⟩)

/-- `KnowledgeBase.__init__`: directories are created, the three lists
start empty, and `load_knowledge_base` runs. No configuration value is
validated anywhere in the constructor. -/
def KB_init (cfg : Config) (svc : EmbedSvc) (cache : Option CacheData)
    (files : List SrcFile) : KBState × Bool × Option CacheData :=
  load_knowledge_base cfg svc ⟨[], [], []⟩ cache files

/-- `KnowledgeBase.add_document`: chunk the content, embed the chunks,
append `zip(chunks, new_embeddings)` triples, persist. The chunker's
`ValueError` (when `chunk_size = chunk_overlap`) is not caught here
and propagates to the caller. -/
def add_document (cfg : Config) (svc : EmbedSvc) (st : KBState) (content : String)
    (meta : Metadata) (files : List SrcFile) : Except String (KBState × CacheData) :=
  match chunk_text cfg.chunk_size cfg.chunk_overlap content with
  | .error e => .error e
  | .ok chunks =>
    let pairs := chunks.zip (generate_embeddings svc chunks)
    let st1 : KBState :=
      ⟨st.documents ++ pairs.map Prod.fst,
       st.embeddings ++ pairs.map Prod.snd,
       st.metadata ++ pairs.map fun _ => meta⟩
    .ok (st1, save_cache st1 files)

/-- `np.dot` on two equal-length vectors (numpy would raise on a
length mismatch; every use here is on equal lengths). -/
def dotQ (a b : List ℚ) : ℚ :=
  (a.zipWith (· * ·) b).sum

/-- `np.linalg.norm`: the Euclidean norm, real-valued. -/
noncomputable def normQ (a : List ℚ) : ℝ :=
  Real.sqrt ((dotQ a a : ℚ) : ℝ)

/-- `KnowledgeBase._cosine_similarity`, arithmetic read exactly over
ℝ: `0` when either norm is zero, else `dot / (norm1 * norm2)`. -/
noncomputable def cosine_similarity (a b : List ℚ) : ℝ :=
  if normQ a = 0 ∨ normQ b = 0 then 0
  else ((dotQ a b : ℚ) : ℝ) / (normQ a * normQ b)

/-- The filtered `(index, similarity)` list `search` builds: one entry
per stored embedding whose similarity to the query meets the
threshold, in index order. -/
noncomputable def similarities (threshold : ℝ) (qe : List ℚ) (embs : List (List ℚ)) :
    List (ℕ × ℝ) :=
  (embs.enum.map fun p => (p.1, cosine_similarity qe p.2)).filter
    fun p => decide (threshold ≤ p.2)

/-- `similarities.sort(key=lambda x: x[1], reverse=True)`: Python's
sort is stable, and with `reverse=True` equal keys still keep their
original relative order; `insertionSort` with "later score not above
mine" inserts each earlier element before its ties, which is the same
stable descending order. -/
noncomputable def sortBySimilarity (sims : List (ℕ × ℝ)) : List (ℕ × ℝ) :=
  List.insertionSort (fun a b => b.2 ≤ a.2) sims

/-- `KnowledgeBase.search`. The second component counts the embedding
service invocations the call makes (`0` on the empty-snapshot early
return, `1` otherwise). `none` from the service models the call
raising; a successful response with no data row would also raise
(`IndexError` on `data[0]`) inside the same `try`, hence the `some []`
case also returns empty. Out-of-range indices would raise in Python;
under the alignment invariant every index is in range, so `getD` is
exact. -/
noncomputable def search (cfg : Config) (svc : EmbedSvc) (st : KBState)
    (query : String) (top_k : ℕ) : List (String × Metadata × ℝ) × ℕ :=
  if st.documents.isEmpty then ([], 0)
  else
    match svc [query] with
    | some (qe :: _) =>
      let sorted := sortBySimilarity (similarities cfg.similarity_threshold qe st.embeddings)
      (((sorted.take top_k).map fun p =>
        (st.documents.getD p.1 "", st.metadata.getD p.1 default, p.2)), 1)
    | _ => ([], 1)

/-- The stable descending order `search`'s sort produces: an entry
strictly precedes another when its score is higher, or the scores are
equal and its original index is smaller. -/
def rankBefore (x y : ℕ × ℝ) : Prop :=
  y.2 < x.2 ∨ (x.2 = y.2 ∧ x.1 < y.1)

/-- The snapshot invariant: the three lists are index-aligned. -/
def aligned (st : KBState) : Prop :=
  st.embeddings.length = st.documents.length ∧ st.metadata.length = st.documents.length

/-- Alignment of a cached snapshot. -/
def alignedCache (cd : CacheData) : Prop :=
  cd.embeddings.length = cd.documents.length ∧ cd.metadata.length = cd.documents.length

/-- A well-behaved embedding service for the concrete scenarios: one
vector `[1]` per input text. -/
def sampleSvc : EmbedSvc := fun b => some (b.map fun _ => [1])

/-- An embedding service whose every call raises. -/
def noneSvc : EmbedSvc := fun _ => none

/-- The end-to-end scenario file: `notes.txt` containing
`"alpha beta gamma delta"`. -/
def notesFile : SrcFile :=
  ⟨"/kb/notes.txt", "notes.txt", ".txt", "alpha beta gamma delta", ⟨22, 1⟩⟩

/-- The constructor's default configuration (`chunk_size=500`,
`chunk_overlap=50`, `similarity_threshold=0.7`). -/
noncomputable def cfgDefault : Config := ⟨500, 50, 7 / 10⟩

/-- A pre-reload in-memory snapshot holding one stale chunk. -/
def staleState : KBState := ⟨["stale"], [[1]], [⟨"/kb/old.txt", "old.txt", ".txt"⟩]⟩

/-- A deserializable cache artifact whose stored signature map (taken
over an empty directory) differs from the current one. -/
def staleCache : CacheData :=
  ⟨["stale"], [[1]], [⟨"/kb/old.txt", "old.txt", ".txt"⟩], []⟩

/-! ## Chunker lemmas -/

lemma joinWords_cons_length (w : String) (ws : List String) :
    w.length ≤ (joinWords (w :: ws)).length := by
  cases ws with
  | nil => exact le_rfl
  | cons v vs =>
    simp [joinWords, String.length_append]
    omega

lemma wordsAux_pos : ∀ cs acc, ∀ w ∈ wordsAux cs acc, 0 < w.length := by
  intro cs
  induction cs with
  | nil =>
    intro acc w hw
    by_cases h : acc.isEmpty
    · simp [wordsAux, h] at hw
    · simp [wordsAux, h] at hw
      subst hw
      have hne : acc ≠ [] := fun hn => by simp [hn] at h
      have hmk : (String.mk acc.reverse).length = acc.reverse.length := rfl
      rw [hmk, List.length_reverse]
      exact List.length_pos.mpr hne
  | cons c cs ih =>
    intro acc w hw
    by_cases hc : c.isWhitespace
    · by_cases ha : acc.isEmpty
      · simp only [wordsAux, hc, ha, if_true] at hw
        exact ih [] w hw
      · simp only [wordsAux, hc, ha, if_true, if_false] at hw
        rcases List.mem_cons.mp hw with rfl | hw
        · have hne : acc ≠ [] := fun hn => by simp [hn] at ha
          have hmk : (String.mk acc.reverse).length = acc.reverse.length := rfl
          rw [hmk, List.length_reverse]
          exact List.length_pos.mpr hne
        · exact ih [] w hw
    · simp only [wordsAux, hc, if_false] at hw
      exact ih (c :: acc) w hw

lemma pyWords_pos (t : String) : ∀ w ∈ pyWords t, 0 < w.length :=
  wordsAux_pos t.toList []

lemma chunkLoop_length (ws : List String) (csize step : ℕ) (hc : 0 < csize)
    (hs : 0 < step) (hws : ∀ w ∈ ws, 0 < w.length) :
    ∀ fuel i, ws.length - i ≤ fuel →
      (chunkLoop ws csize step i fuel).length = (ws.length - i + step - 1) / step := by
  intro fuel
  induction fuel with
  | zero =>
    intro i hi
    have h1 : chunkLoop ws csize step i 0 = [] := rfl
    rw [h1]
    have h2 : ws.length - i = 0 := by omega
    rw [h2]
    exact (Nat.div_eq_of_lt (by omega)).symm
  | succ fuel ih =>
    intro i hi
    by_cases hlt : i < ws.length
    · obtain ⟨w, rest, hdrop⟩ : ∃ w rest, ws.drop i = w :: rest := by
        cases hd : ws.drop i with
        | nil => exact absurd (List.drop_eq_nil_iff.mp hd) (by omega)
        | cons w rest => exact ⟨w, rest, rfl⟩
      obtain ⟨k, hk⟩ : ∃ k, csize = k + 1 := ⟨csize - 1, by omega⟩
      have hwmem : w ∈ ws := List.mem_of_mem_drop (hdrop ▸ List.mem_cons_self w rest)
      have hchunk : 0 < (joinWords ((ws.drop i).take csize)).length := by
        rw [hdrop, hk]
        calc 0 < w.length := hws w hwmem
        _ ≤ (joinWords (w :: rest.take k)).length := joinWords_cons_length w _
      have hunf : chunkLoop ws csize step i (fuel + 1) =
          joinWords ((ws.drop i).take csize) :: chunkLoop ws csize step (i + step) fuel := by
        simp only [chunkLoop, if_pos hlt]
        rw [if_neg (by omega)]
      rw [hunf, List.length_cons, ih (i + step) (by omega)]
      rcases le_or_lt (ws.length - i) step with hle | hgt
      · have h0 : ws.length - (i + step) = 0 := by omega
        rw [h0]
        have h1 : (0 + step - 1) / step = 0 := Nat.div_eq_of_lt (by omega)
        have h2 : (ws.length - i + step - 1) / step = 1 := by
          rw [show ws.length - i + step - 1 = (ws.length - i - 1) + step by omega,
            Nat.add_div_right _ hs, Nat.div_eq_of_lt (by omega)]
        omega
      · rw [show ws.length - i + step - 1 = (ws.length - (i + step) + step - 1) + step by
          omega, Nat.add_div_right _ hs]
    · have h1 : chunkLoop ws csize step i (fuel + 1) = [] := by
        simp only [chunkLoop]
        rw [if_neg hlt]
      rw [h1]
      have h2 : ws.length - i = 0 := by omega
      rw [h2]
      exact (Nat.div_eq_of_lt (by omega)).symm

/-! ## Embedding-batch lemmas -/

lemma sampleSvc_ok : svcOK sampleSvc := by
  intro b vs h
  simp only [sampleSvc] at h
  obtain rfl := Option.some.inj h
  simp

lemma embedBatch_length (svc : EmbedSvc) (hsvc : svcOK svc) (b : List String) :
    (embedBatch svc b).length = b.length := by
  unfold embedBatch
  cases hs : svc b with
  | some vs => exact hsvc _ _ hs
  | none => simp

lemma genEmbLoop_length (svc : EmbedSvc) (hsvc : svcOK svc) :
    ∀ fuel ts, ts.length ≤ fuel → (genEmbLoop svc fuel ts).length = ts.length := by
  intro fuel
  induction fuel with
  | zero =>
    intro ts hts
    obtain rfl : ts = [] := List.length_eq_zero.mp (by omega)
    rfl
  | succ fuel ih =>
    intro ts hts
    cases ts with
    | nil => rfl
    | cons t ts =>
      simp only [genEmbLoop, List.length_append]
      rw [embedBatch_length svc hsvc, ih _ (by
        simp only [List.length_drop, List.length_cons, batch_size] at hts ⊢; omega)]
      simp only [List.length_take, List.length_drop, List.length_cons, batch_size]
      omega

lemma generate_embeddings_length (svc : EmbedSvc) (hsvc : svcOK svc) (texts : List String) :
    (generate_embeddings svc texts).length = texts.length :=
  genEmbLoop_length svc hsvc texts.length texts le_rfl

lemma genEmbLoop_eq_flatten (svc : EmbedSvc) :
    ∀ fuel ts, genEmbLoop svc fuel ts = ((batchesF fuel ts).map (embedBatch svc)).flatten := by
  intro fuel
  induction fuel with
  | zero => intro ts; cases ts <;> rfl
  | succ fuel ih =>
    intro ts
    cases ts with
    | nil => rfl
    | cons t ts =>
      simp only [genEmbLoop, batchesF, List.map_cons, List.flatten_cons]
      rw [ih]

/-! ## Alignment lemmas -/

lemma process_file_spec (cfg : Config) (st : KBState) (f : SrcFile) :
    ∃ docs meta, docs.length = meta.length ∧
      process_file cfg st f =
        ⟨st.documents ++ docs, st.embeddings, st.metadata ++ meta⟩ := by
  unfold process_file
  cases chunk_text cfg.chunk_size cfg.chunk_overlap f.text with
  | error e => exact ⟨[], [], rfl, by cases st; simp⟩
  | ok chunks =>
    exact ⟨chunks, chunks.map fun _ => ⟨f.path, f.filename, f.suffix⟩, by simp, rfl⟩

lemma foldl_process_spec (cfg : Config) :
    ∀ (fs : List SrcFile) (st : KBState), ∃ docs meta, docs.length = meta.length ∧
      fs.foldl (process_file cfg) st =
        ⟨st.documents ++ docs, st.embeddings, st.metadata ++ meta⟩ := by
  intro fs
  induction fs with
  | nil => intro st; exact ⟨[], [], rfl, by cases st; simp⟩
  | cons f fs ih =>
    intro st
    obtain ⟨d1, m1, h1, he1⟩ := process_file_spec cfg st f
    obtain ⟨d2, m2, h2, he2⟩ := ih (process_file cfg st f)
    refine ⟨d1 ++ d2, m1 ++ m2, by simp [h1, h2], ?_⟩
    simp only [List.foldl_cons]
    rw [he2, he1]
    simp

/-- C1 (amended): for `chunk_overlap = o < chunk_size = c`,
`_chunk_text` splits a text of `n` words into exactly
`⌈n / (c - o)⌉ = (n + (c - o) - 1) / (c - o)` chunks (`0` for empty
input) — not `⌈max(n - o, 0) / (c - o)⌉` as claimed: the loop starts a
window at every multiple of `c - o` below `n`, so trailing windows
lying entirely inside the previous chunk's overlap are still emitted.
On `"alpha beta gamma delta"` with `c = 2`, `o = 1` this yields the
four chunks `["alpha beta", "beta gamma", "gamma delta", "delta"]`,
not the three the spec expects (`C1_counterexample`). -/
theorem C1_chunk_count (c o : ℕ) (t : String) (l : List String) (h : o < c)
    (hl : chunk_text c o t = .ok l) :
    l.length = ((pyWords t).length + (c - o) - 1) / (c - o) := by
  simp only [chunk_text, if_pos h] at hl
  obtain rfl := Except.ok.inj hl
  simpa using chunkLoop_length (pyWords t) c (c - o) (by omega) (by omega)
    (pyWords_pos t) (pyWords t).length 0 (by omega)

/-- C1 witness: the amended count at the end-to-end input: 4 words,
`c = 2`, `o = 1` give `⌈4 / 1⌉ = 4` chunks. -/
theorem C1_chunk_count_witness :
    (1 < 2 ∧ chunk_text 2 1 "alpha beta gamma delta" =
      .ok ["alpha beta", "beta gamma", "gamma delta", "delta"]) ∧
    (["alpha beta", "beta gamma", "gamma delta", "delta"] : List String).length =
      ((pyWords "alpha beta gamma delta").length + (2 - 1) - 1) / (2 - 1) :=
  ⟨⟨by omega, rfl⟩, C1_chunk_count 2 1 "alpha beta gamma delta" _ (by omega) rfl⟩

/-- C1 counterexample: on `"alpha beta gamma delta"` with
`chunk_size = 2`, `chunk_overlap = 1` the chunker emits four chunks —
the trailing `"delta"` included — not the three the claim states. -/
theorem C1_counterexample :
    chunk_text 2 1 "alpha beta gamma delta" =
      .ok ["alpha beta", "beta gamma", "gamma delta", "delta"] ∧
    chunk_text 2 1 "alpha beta gamma delta" ≠
      .ok ["alpha beta", "beta gamma", "gamma delta"] := by
  refine ⟨rfl, fun hcl => ?_⟩
  rw [show chunk_text 2 1 "alpha beta gamma delta" =
    .ok ["alpha beta", "beta gamma", "gamma delta", "delta"] from rfl] at hcl
  exact absurd (Except.ok.inj hcl) (by decide)

/-- C10: with `chunk_overlap` strictly greater than `chunk_size` the
Python step is negative, `range(0, len(words), step)` is empty, and
`_chunk_text` terminates with zero chunks and no error (it is a total
function on this branch), silently dropping all input text. -/
theorem C10_overlap_gt_size_empty (c o : ℕ) (t : String) (h : c < o) :
    chunk_text c o t = .ok [] := by
  simp only [chunk_text]
  rw [if_neg (by omega), if_pos h]

/-- C10 witness: `chunk_size = 2 < chunk_overlap = 5` on a two-word
text chunks to nothing and raises no error. -/
theorem C10_overlap_gt_size_empty_witness :
    2 < 5 ∧ chunk_text 2 5 "alpha beta" = .ok [] :=
  ⟨by omega, C10_overlap_gt_size_empty 2 5 "alpha beta" (by omega)⟩

/-- C3 (code bug): the constructor has no fail-fast validation.
Constructing over a directory holding `notes.txt` with
`chunk_overlap = 5 > chunk_size = 2`, or with
`chunk_overlap = chunk_size = 2`, succeeds and returns an (empty)
snapshot: the chunking loop is reached and silently drops the text
(overlap > size), or raises `ValueError` only at chunk time where it
is caught per file (overlap = size). The claimed construction-time
rejection does not exist. -/
theorem C3_no_construction_validation :
    (KB_init ⟨2, 5, 7 / 10⟩ sampleSvc none [notesFile]).1 = ⟨[], [], []⟩ ∧
    (KB_init ⟨2, 2, 7 / 10⟩ sampleSvc none [notesFile]).1 = ⟨[], [], []⟩ ∧
    chunk_text 2 5 notesFile.text = .ok [] ∧
    chunk_text 2 2 notesFile.text = .error "ValueError: range() arg 3 must not be zero" :=
  ⟨rfl, rfl, rfl, rfl⟩

/-- C2 (code bug): a cache-miss reload does not equal a cold rebuild:
`_process_all_documents` appends to the existing `documents` and
`metadata` lists without clearing them, so the pre-reload chunk
`"stale"` and its metadata are carried over in front of the
directory's chunks, while a cold start over the same directory
contents yields only the directory's chunks. -/
theorem C2_reload_not_cold_rebuild :
    (load_knowledge_base cfgDefault sampleSvc staleState (some staleCache) [notesFile]).1.documents
      = ["stale", "alpha beta gamma delta"] ∧
    (load_knowledge_base cfgDefault sampleSvc staleState (some staleCache) [notesFile]).1.metadata
      = [⟨"/kb/old.txt", "old.txt", ".txt"⟩, ⟨"/kb/notes.txt", "notes.txt", ".txt"⟩] ∧
    (KB_init cfgDefault sampleSvc none [notesFile]).1.documents = ["alpha beta gamma delta"] ∧
    (load_knowledge_base cfgDefault sampleSvc staleState (some staleCache) [notesFile]).1.documents
      ≠ (KB_init cfgDefault sampleSvc none [notesFile]).1.documents :=
  ⟨rfl, rfl, rfl, by decide⟩

/-- C7: `_generate_embeddings` returns one vector per input text
(index-aligned), assuming a successful service call returns one vector
per text; the texts are processed in batches of up to 20, each batch
independently (the output is the concatenation of the per-batch
results, so one failing batch affects no other), and a batch whose
service call raises contributes one all-zero vector of dimension 1536
per text of that batch. -/
theorem C7_generate_embeddings (svc : EmbedSvc) (texts : List String) (hsvc : svcOK svc) :
    (generate_embeddings svc texts).length = texts.length ∧
    generate_embeddings svc texts = ((batches texts).map (embedBatch svc)).flatten ∧
    zero_vector.length = 1536 ∧
    (∀ b, svc b = none → embedBatch svc b = b.map fun _ => zero_vector) ∧
    (∀ b vs, svc b = some vs → embedBatch svc b = vs) := by
  refine ⟨generate_embeddings_length svc hsvc texts,
    genEmbLoop_eq_flatten svc texts.length texts,
    by rw [zero_vector]; exact List.length_replicate 1536 0, fun b hb => ?_, fun b vs hb => ?_⟩
  · unfold embedBatch
    rw [hb]
  · unfold embedBatch
    rw [hb]

/-- C7 witness: the length contract at a two-text input under the
well-behaved sample service. -/
theorem C7_generate_embeddings_witness :
    svcOK sampleSvc ∧
    (generate_embeddings sampleSvc ["alpha", "beta"]).length = (["alpha", "beta"] : List String).length :=
  ⟨sampleSvc_ok, (C7_generate_embeddings sampleSvc ["alpha", "beta"] sampleSvc_ok).1⟩

/-- C4: after each snapshot mutation — full rebuild
(`_process_all_documents`), incremental add (`add_document`) and cache
load (the hit branch of `load_knowledge_base`) — the three lists
`documents`, `embeddings`, `metadata` have equal length, assuming the
embedding service returns one vector per text when it succeeds, the
pre-mutation state is aligned, and any reused cache snapshot is
aligned. -/
theorem C4_alignment (cfg : Config) (svc : EmbedSvc) (hsvc : svcOK svc) :
    (∀ st files, aligned st → aligned (process_all_documents cfg svc st files)) ∧
    (∀ st content meta files st1 cd, aligned st →
      add_document cfg svc st content meta files = .ok (st1, cd) → aligned st1) ∧
    (∀ st cache files, aligned st → (∀ cd, cache = some cd → alignedCache cd) →
      aligned (load_knowledge_base cfg svc st cache files).1) := by
  have hproc : ∀ st files, aligned st → aligned (process_all_documents cfg svc st files) := by
    intro st files hal
    simp only [process_all_documents]
    obtain ⟨d, m, hdm, he⟩ := foldl_process_spec cfg
      (files.filter fun f => supported_extensions.contains (pyLower f.suffix)) st
    rw [he]
    by_cases hemp :
        (⟨st.documents ++ d, st.embeddings, st.metadata ++ m⟩ : KBState).documents.isEmpty
    · rw [if_pos hemp]
      obtain ⟨hd0, hd1⟩ := List.append_eq_nil.mp (List.isEmpty_iff.mp hemp)
      obtain ⟨ha1, ha2⟩ := hal
      have hm : m.length = 0 := by rw [hd1] at hdm; simpa using hdm.symm
      have hmeta : st.metadata.length = 0 := by rw [ha2, hd0]; rfl
      refine ⟨?_, ?_⟩
      · show st.embeddings.length = (st.documents ++ d).length
        rw [ha1]
        simp [hd0, hd1]
      · show (st.metadata ++ m).length = (st.documents ++ d).length
        simp [List.length_append, hd0, hd1, hmeta, hm]
    · rw [if_neg hemp]
      obtain ⟨ha1, ha2⟩ := hal
      refine ⟨generate_embeddings_length svc hsvc _, ?_⟩
      show (st.metadata ++ m).length = (st.documents ++ d).length
      simp [List.length_append]
      omega
  refine ⟨hproc, ?_, ?_⟩
  · intro st content meta files st1 cd hal hadd
    simp only [add_document] at hadd
    cases hct : chunk_text cfg.chunk_size cfg.chunk_overlap content with
    | error e => rw [hct] at hadd; exact absurd hadd (by simp)
    | ok chunks =>
      rw [hct] at hadd
      simp only [] at hadd
      obtain ⟨h1, _⟩ := Prod.mk.inj (Except.ok.inj hadd)
      obtain ⟨ha1, ha2⟩ := hal
      rw [← h1]
      constructor
      · simp
        omega
      · simp
        omega
  · intro st cache files hal hcache
    cases cache with
    | none => exact hproc st files hal
    | some cd =>
      by_cases hsig : sigMapEq cd.file_signatures (get_file_signatures files) = true
      · simp only [load_knowledge_base]
        rw [if_pos hsig]
        exact hcache cd rfl
      · simp only [load_knowledge_base]
        rw [if_neg hsig]
        exact hproc st files hal

/-- C4 witness: alignment after a full rebuild from the sample
pre-state over the scenario directory, under the sample service. -/
theorem C4_alignment_witness :
    (svcOK sampleSvc ∧ aligned staleState) ∧
    aligned (process_all_documents cfgDefault sampleSvc staleState [notesFile]) :=
  ⟨⟨sampleSvc_ok, by constructor <;> rfl⟩,
    (C4_alignment cfgDefault sampleSvc sampleSvc_ok).1 staleState [notesFile]
      ⟨rfl, rfl⟩⟩

/-! ## Cosine-similarity lemmas -/

lemma dotQ_comm (a b : List ℚ) : dotQ a b = dotQ b a := by
  unfold dotQ
  rw [List.zipWith_comm_of_comm (· * ·) mul_comm]

lemma dotQ_self_eq_sum_squares (a : List ℚ) :
    dotQ a a = (a.map fun x => x * x).sum := by
  unfold dotQ
  congr 1
  induction a with
  | nil => rfl
  | cons x xs ih => simp only [List.zipWith_cons_cons, List.map_cons, ih]

lemma dotQ_self_nonneg (a : List ℚ) : 0 ≤ dotQ a a := by
  rw [dotQ_self_eq_sum_squares]
  apply List.sum_nonneg
  intro x hx
  obtain ⟨y, _, rfl⟩ := List.mem_map.mp hx
  exact mul_self_nonneg y

lemma dotQ_self_pos (a : List ℚ) (h : ∃ x ∈ a, x ≠ 0) : 0 < dotQ a a := by
  obtain ⟨x, hx, hx0⟩ := h
  rw [dotQ_self_eq_sum_squares]
  calc (0 : ℚ) < x * x := mul_self_pos.mpr hx0
  _ ≤ (a.map fun y => y * y).sum := by
    apply List.single_le_sum
    · intro z hz
      obtain ⟨y, _, rfl⟩ := List.mem_map.mp hz
      exact mul_self_nonneg y
    · exact List.mem_map.mpr ⟨x, hx, rfl⟩

lemma normQ_replicate_zero (n : ℕ) : normQ (List.replicate n 0) = 0 := by
  unfold normQ
  have h : dotQ (List.replicate n (0 : ℚ)) (List.replicate n 0) = 0 := by
    rw [dotQ_self_eq_sum_squares]
    simp
  rw [h]
  simp

lemma normQ_pos (a : List ℚ) (h : 0 < dotQ a a) : 0 < normQ a := by
  unfold normQ
  rw [Real.sqrt_pos]
  exact_mod_cast h

/-- C9: `_cosine_similarity`, read exactly over the reals, is
`dot(a,b) / (norm(a) * norm(b))` with value `0` whenever either norm
is zero; it is symmetric, equals `1` on any nonzero vector paired with
itself, and is `0` against the zero vector. -/
theorem C9_cosine (a b : List ℚ) (_hlen : a.length = b.length) :
    cosine_similarity a b = cosine_similarity b a ∧
    ((∃ x ∈ a, x ≠ 0) → cosine_similarity a a = 1) ∧
    cosine_similarity a (List.replicate b.length 0) = 0 ∧
    ((normQ a = 0 ∨ normQ b = 0) → cosine_similarity a b = 0) ∧
    (normQ a ≠ 0 → normQ b ≠ 0 →
      cosine_similarity a b = ((dotQ a b : ℚ) : ℝ) / (normQ a * normQ b)) := by
  refine ⟨?_, ?_, ?_, ?_, ?_⟩
  · unfold cosine_similarity
    rw [dotQ_comm]
    by_cases h1 : normQ a = 0 ∨ normQ b = 0
    · rw [if_pos h1, if_pos (Or.symm h1)]
    · rw [if_neg h1, if_neg (fun hc => h1 (Or.symm hc)), mul_comm]
  · intro hx
    have hpos := dotQ_self_pos a hx
    have hn : 0 < normQ a := normQ_pos a hpos
    unfold cosine_similarity
    rw [if_neg (by push_neg; exact ⟨ne_of_gt hn, ne_of_gt hn⟩)]
    unfold normQ
    rw [Real.mul_self_sqrt (by exact_mod_cast hpos.le)]
    exact div_self (by exact_mod_cast hpos.ne')
  · unfold cosine_similarity
    rw [if_pos (Or.inr (normQ_replicate_zero b.length))]
  · intro h
    unfold cosine_similarity
    rw [if_pos h]
  · intro h1 h2
    unfold cosine_similarity
    rw [if_neg (by tauto)]

/-- C9 witness: the algebraic facts at the concrete equal-length pair
`[3, 4]` and `[0, 5]`. -/
theorem C9_cosine_witness :
    ([3, 4] : List ℚ).length = ([0, 5] : List ℚ).length ∧
    cosine_similarity [3, 4] [0, 5] = cosine_similarity [0, 5] [3, 4] :=
  ⟨rfl, (C9_cosine [3, 4] [0, 5] rfl).1⟩

/-! ## Search ranking lemmas -/

lemma rankBefore_le {x y : ℕ × ℝ} (h : rankBefore x y) : y.2 ≤ x.2 := by
  rcases h with h | ⟨h, _⟩
  · exact h.le
  · exact le_of_eq h.symm

lemma rankBefore_of {x y : ℕ × ℝ} (hle : y.2 ≤ x.2) (hidx : x.1 < y.1) :
    rankBefore x y := by
  rcases lt_or_eq_of_le hle with h | h
  · exact Or.inl h
  · exact Or.inr ⟨h.symm, hidx⟩

lemma pairwise_orderedInsert (x : ℕ × ℝ) :
    ∀ l : List (ℕ × ℝ), l.Pairwise rankBefore → (∀ y ∈ l, x.1 < y.1) →
      (List.orderedInsert (fun a b => b.2 ≤ a.2) x l).Pairwise rankBefore := by
  intro l
  induction l with
  | nil =>
    intro _ _
    simp [List.orderedInsert]
  | cons y ys ih =>
    intro hl hx
    simp only [List.orderedInsert]
    by_cases hc : y.2 ≤ x.2
    · rw [if_pos hc]
      refine List.Pairwise.cons ?_ hl
      intro z hz
      rcases List.mem_cons.mp hz with rfl | hz
      · exact rankBefore_of hc (hx z (List.mem_cons_self z ys))
      · have hyz : rankBefore y z := List.rel_of_pairwise_cons hl hz
        exact rankBefore_of (le_trans (rankBefore_le hyz) hc)
          (hx z (List.mem_cons.mpr (Or.inr hz)))
    · rw [if_neg hc]
      obtain ⟨hy, hys⟩ := List.pairwise_cons.mp hl
      refine List.Pairwise.cons ?_
        (ih hys fun z hz => hx z (List.mem_cons.mpr (Or.inr hz)))
      intro z hz
      rcases (List.mem_orderedInsert _).mp hz with rfl | hz
      · exact Or.inl (lt_of_not_le hc)
      · exact hy z hz

lemma sortBySimilarity_pairwise :
    ∀ l : List (ℕ × ℝ), l.Pairwise (fun a b => a.1 < b.1) →
      (sortBySimilarity l).Pairwise rankBefore := by
  intro l
  induction l with
  | nil =>
    intro _
    simp [sortBySimilarity]
  | cons x xs ih =>
    intro hl
    obtain ⟨hx, hxs⟩ := List.pairwise_cons.mp hl
    unfold sortBySimilarity at ih ⊢
    simp only [List.insertionSort]
    apply pairwise_orderedInsert
    · exact ih hxs
    · intro y hy
      exact hx y (((List.perm_insertionSort _ xs).mem_iff).mp hy)

lemma mem_sortBySimilarity {l : List (ℕ × ℝ)} {p : ℕ × ℝ}
    (hp : p ∈ sortBySimilarity l) : p ∈ l :=
  ((List.perm_insertionSort _ l).mem_iff).mp hp

lemma mem_enumFrom_fst_le {α : Type*} :
    ∀ (n : ℕ) (l : List α) (q : ℕ × α), q ∈ List.enumFrom n l → n ≤ q.1 := by
  intro n l
  induction l generalizing n with
  | nil =>
    intro q h
    simp at h
  | cons a l ih =>
    intro q h
    rw [List.enumFrom] at h
    rcases List.mem_cons.mp h with rfl | h
    · exact le_rfl
    · exact le_trans (Nat.le_succ n) (ih (n + 1) q h)

lemma enumFrom_pairwise_fst {α : Type*} :
    ∀ (n : ℕ) (l : List α), (List.enumFrom n l).Pairwise fun p q => p.1 < q.1 := by
  intro n l
  induction l generalizing n with
  | nil => simp
  | cons a l ih =>
    rw [List.enumFrom]
    refine List.Pairwise.cons ?_ (ih (n + 1))
    intro q hq
    have := mem_enumFrom_fst_le (n + 1) l q hq
    omega

lemma similarities_pairwise_fst (θ : ℝ) (qe : List ℚ) (embs : List (List ℚ)) :
    (similarities θ qe embs).Pairwise fun a b => a.1 < b.1 := by
  unfold similarities
  apply List.Pairwise.filter
  rw [List.pairwise_map]
  exact enumFrom_pairwise_fst 0 embs

lemma mem_similarities {θ : ℝ} {qe : List ℚ} {embs : List (List ℚ)} {p : ℕ × ℝ}
    (hp : p ∈ similarities θ qe embs) :
    θ ≤ p.2 ∧ p.1 < embs.length ∧ p.2 = cosine_similarity qe (embs.getD p.1 []) := by
  unfold similarities at hp
  obtain ⟨hp1, hp2⟩ := List.mem_filter.mp hp
  have hθ := of_decide_eq_true hp2
  obtain ⟨q, hq, hpe⟩ := List.mem_map.mp hp1
  have hget : embs[q.1]? = some q.2 := List.mk_mem_enum_iff_getElem?.mp hq
  obtain ⟨hlt, _⟩ := List.getElem?_eq_some.mp hget
  subst hpe
  refine ⟨hθ, hlt, ?_⟩
  rw [List.getD_eq_getElem?_getD, hget]
  rfl

/-- C6: `search` returns at most `top_k` triples, every returned score
meets the threshold, scores are descending, ties are broken by
ascending original chunk index (`rankBefore`), and every triple is
`(documents[i], metadata[i], score_i)` for an in-range index `i` whose
score is the cosine similarity of the query embedding against
`embeddings[i]` — under the alignment invariant, for a nonempty
snapshot, when the query-embedding call returns a vector. -/
theorem C6_search (cfg : Config) (svc : EmbedSvc) (st : KBState) (query : String)
    (top_k : ℕ) (qe : List ℚ) (qrest : List (List ℚ))
    (hal : aligned st)
    (hne : st.documents.isEmpty = false)
    (hq : svc [query] = some (qe :: qrest)) :
    (search cfg svc st query top_k).1.length ≤ top_k ∧
    (∀ t ∈ (search cfg svc st query top_k).1, cfg.similarity_threshold ≤ t.2.2) ∧
    ((search cfg svc st query top_k).1.map fun t => t.2.2).Pairwise (fun x y => y ≤ x) ∧
    ∃ ranked : List (ℕ × ℝ),
      (search cfg svc st query top_k).1 =
        ranked.map (fun p => (st.documents.getD p.1 "", st.metadata.getD p.1 default, p.2)) ∧
      ranked.Pairwise rankBefore ∧
      ∀ p ∈ ranked, p.1 < st.documents.length ∧ p.1 < st.metadata.length ∧
        cfg.similarity_threshold ≤ p.2 ∧
        p.2 = cosine_similarity qe (st.embeddings.getD p.1 []) := by
  obtain ⟨ha1, ha2⟩ := hal
  have hred : search cfg svc st query top_k =
      ((((sortBySimilarity
          (similarities cfg.similarity_threshold qe st.embeddings)).take top_k).map
        fun p => (st.documents.getD p.1 "", st.metadata.getD p.1 default, p.2)), 1) := by
    unfold search
    rw [if_neg (by rw [hne]; exact Bool.false_ne_true), hq]
  have hranked : ((sortBySimilarity
      (similarities cfg.similarity_threshold qe st.embeddings)).take top_k).Pairwise
      rankBefore :=
    List.Pairwise.sublist (List.take_sublist _ _)
      (sortBySimilarity_pairwise _ (similarities_pairwise_fst _ _ _))
  have hmem : ∀ p ∈ (sortBySimilarity
      (similarities cfg.similarity_threshold qe st.embeddings)).take top_k,
      cfg.similarity_threshold ≤ p.2 ∧ p.1 < st.embeddings.length ∧
        p.2 = cosine_similarity qe (st.embeddings.getD p.1 []) :=
    fun p hp => mem_similarities (mem_sortBySimilarity (List.mem_of_mem_take hp))
  rw [hred]
  refine ⟨?_, ?_, ?_, ?_⟩
  · rw [List.length_map]
    exact List.length_take_le top_k _
  · intro t ht
    obtain ⟨p, hp, rfl⟩ := List.mem_map.mp ht
    exact (hmem p hp).1
  · rw [List.map_map, List.pairwise_map]
    exact hranked.imp fun h => rankBefore_le h
  · refine ⟨_, rfl, hranked, fun p hp => ?_⟩
    obtain ⟨h1, h2, h3⟩ := hmem p hp
    exact ⟨ha1 ▸ h2, by omega, h1, h3⟩

/-- C6 witness: the ranking contract at the sample snapshot (one
stored chunk), the sample service and `top_k = 3`. -/
theorem C6_search_witness :
    (aligned staleState ∧ staleState.documents.isEmpty = false ∧
      sampleSvc ["q"] = some ([1] :: [])) ∧
    (search cfgDefault sampleSvc staleState "q" 3).1.length ≤ 3 :=
  ⟨⟨⟨rfl, rfl⟩, rfl, rfl⟩,
    (C6_search cfgDefault sampleSvc staleState "q" 3 [1] [] ⟨rfl, rfl⟩ rfl rfl).1⟩

/-- C8: `search` on an empty snapshot returns the empty list without
invoking the embedding service (the invocation count is `0`), and on a
nonempty snapshot whose query-embedding call raises it returns the
empty list after the one failed invocation; both paths return a value
(no error propagates), and the snapshot is not touched (`search` reads
it only). -/
theorem C8_search_degraded (cfg : Config) (svc : EmbedSvc) (st : KBState)
    (query : String) (top_k : ℕ) :
    (st.documents = [] → search cfg svc st query top_k = ([], 0)) ∧
    (st.documents ≠ [] → svc [query] = none → search cfg svc st query top_k = ([], 1)) := by
  constructor
  · intro h
    unfold search
    rw [if_pos (by simp [h])]
  · intro h hq
    unfold search
    rw [if_neg (by simp [List.isEmpty_iff, h]), hq]

/-- C8 witness: the empty-directory scenario (`Search("anything")`
with zero chunks makes no service call) and the raising-service
scenario at the sample snapshot. -/
theorem C8_search_degraded_witness :
    ((⟨[], [], []⟩ : KBState).documents = [] ∧
      search cfgDefault sampleSvc ⟨[], [], []⟩ "anything" 3 = ([], 0)) ∧
    (staleState.documents ≠ [] ∧ noneSvc ["q"] = none ∧
      search cfgDefault noneSvc staleState "q" 3 = ([], 1)) :=
  ⟨⟨rfl, (C8_search_degraded cfgDefault sampleSvc ⟨[], [], []⟩ "anything" 3).1 rfl⟩,
    ⟨by simp [staleState], rfl,
      (C8_search_degraded cfgDefault noneSvc staleState "q" 3).2 (by simp [staleState]) rfl⟩⟩

/-! ## Cache-validation lemmas -/

lemma sigLookup_self :
    ∀ m : List (String × FileSig), (m.map Prod.fst).Nodup →
      ∀ p s, (p, s) ∈ m → sigLookup m p = some s := by
  intro m
  induction m with
  | nil =>
    intro _ p s h
    simp at h
  | cons q m ih =>
    intro hnd p s h
    rw [List.map_cons] at hnd
    obtain ⟨hq, hm⟩ := List.nodup_cons.mp hnd
    rcases List.mem_cons.mp h with heq | h
    · obtain rfl : q = (p, s) := heq.symm
      unfold sigLookup
      rw [List.find?_cons_of_pos _ (by simp)]
      rfl
    · have hp : p ∈ m.map Prod.fst := List.mem_map.mpr ⟨(p, s), h, rfl⟩
      have hne : ¬((fun r : String × FileSig => r.1 == p) q) = true := by
        simp only [beq_iff_eq]
        intro hc
        exact hq (hc ▸ hp)
      unfold sigLookup
      rw [@List.find?_cons_of_neg _ (fun r : String × FileSig => r.1 == p) q m hne]
      exact ih hm p s h

lemma sigMapEq_refl (m : List (String × FileSig)) (h : (m.map Prod.fst).Nodup) :
    sigMapEq m m = true := by
  unfold sigMapEq
  rw [Bool.and_eq_true]
  constructor <;>
  · rw [List.all_eq_true]
    intro q hq
    rw [sigLookup_self m h q.1 q.2 hq]
    simp

/-- C5: the cached snapshot is reused iff the artifact deserializes
(`cache = some cd`; `none` covers a missing file and a failed read)
and its stored signature map equals the freshly computed one; on reuse
the three lists are exactly the persisted ones; any difference or a
failed read triggers a full rebuild; and a persist/load round trip
over an unchanged directory is a cache hit restoring the persisted
snapshot exactly. -/
theorem C5_cache_validation (cfg : Config) (svc : EmbedSvc) (st : KBState)
    (cache : Option CacheData) (files : List SrcFile)
    (hnd : (files.map SrcFile.path).Nodup) :
    ((load_knowledge_base cfg svc st cache files).2.1 = true ↔
      ∃ cd, cache = some cd ∧
        sigMapEq cd.file_signatures (get_file_signatures files) = true) ∧
    (∀ cd, cache = some cd →
      sigMapEq cd.file_signatures (get_file_signatures files) = true →
      (load_knowledge_base cfg svc st cache files).1 =
        ⟨cd.documents, cd.embeddings, cd.metadata⟩) ∧
    ((cache = none ∨ ∃ cd, cache = some cd ∧
        sigMapEq cd.file_signatures (get_file_signatures files) = false) →
      (load_knowledge_base cfg svc st cache files).1 =
        process_all_documents cfg svc st files) ∧
    (∀ st2 : KBState,
      load_knowledge_base cfg svc st2 (some (save_cache st files)) files =
        (st, true, none)) := by
  have hrefl : sigMapEq (get_file_signatures files) (get_file_signatures files) = true := by
    apply sigMapEq_refl
    simpa [get_file_signatures, List.map_map, Function.comp] using hnd
  refine ⟨?_, ?_, ?_, ?_⟩
  · cases cache with
    | none =>
      simp only [load_knowledge_base]
      constructor
      · intro h
        exact absurd h (by simp)
      · rintro ⟨cd, hcd, _⟩
        exact absurd hcd (by simp)
    | some cd =>
      by_cases hsig : sigMapEq cd.file_signatures (get_file_signatures files) = true
      · simp only [load_knowledge_base]
        rw [if_pos hsig]
        exact ⟨fun _ => ⟨cd, rfl, hsig⟩, fun _ => rfl⟩
      · simp only [load_knowledge_base]
        rw [if_neg hsig]
        constructor
        · intro h
          exact absurd h (by simp)
        · rintro ⟨cd2, hcd2, hsig2⟩
          obtain rfl := Option.some.inj hcd2
          exact absurd hsig2 hsig
  · intro cd hcd hsig
    subst hcd
    simp only [load_knowledge_base]
    rw [if_pos hsig]
  · intro hmiss
    rcases hmiss with rfl | ⟨cd, rfl, hsig⟩
    · rfl
    · simp only [load_knowledge_base]
      rw [if_neg (by simp [hsig])]
  · intro st2
    simp only [load_knowledge_base, save_cache]
    rw [if_pos hrefl]

/-- C5 witness: the scenario directory (distinct paths) under the
sample service and an arbitrary cache state. -/
theorem C5_cache_validation_witness :
    ([notesFile].map SrcFile.path).Nodup ∧
    (∀ st2 : KBState,
      load_knowledge_base cfgDefault sampleSvc st2
        (some (save_cache staleState [notesFile])) [notesFile] =
        (staleState, true, none)) :=
  ⟨by simp,
    (C5_cache_validation cfgDefault sampleSvc staleState none [notesFile] (by simp)).2.2.2⟩

end KB
